import Mathlib

/-!
Verification development for the tsurust shared rule engine
(`src/common/src/game.rs`, `src/common/src/player_state.rs`,
`src/client/src/render.rs`).

`FnvHashMap` is modelled as an association list with unique keys kept in
insertion order: `insertKV` overwrites the value of an existing key in
place and appends a fresh key at the end, matching `HashMap::insert`
semantics (which `FromIterator`/`collect` iterates).  A lookup that would
panic in Rust (`map[key]`, `.expect(..)`, `Vec::remove` out of range) is
modelled as `Option.none`.
-/

namespace Tsurust

variable {K V : Type} [DecidableEq K]

/-- Association-list model of `FnvHashMap` lookup (`map.get` / `map[key]`). -/
def lookupKV : List (K × V) → K → Option V
  | [], _ => none
  | (k', v') :: rest, k => if k' = k then some v' else lookupKV rest k

/-- Association-list model of `HashMap::insert`: overwrite the first entry
with the given key, or append a new entry at the end. -/
def insertKV : List (K × V) → K → V → List (K × V)
  | [], k, v => [(k, v)]
  | (k', v') :: rest, k, v =>
    if k' = k then (k, v) :: rest else (k', v') :: insertKV rest k v

/-- Replace the value stored at a key that is already present
(model of mutation through `get_mut`); no-op when the key is absent. -/
def updateKV : List (K × V) → K → V → List (K × V)
  | [], _, _ => []
  | (k', v') :: rest, k, v =>
    if k' = k then (k', v) :: rest else (k', v') :: updateKV rest k v

/-- Model of `iter.collect::<FnvHashMap<_, _>>()`: repeated insertion
into an empty map, later pairs overwriting earlier ones. -/
def collectKV (l : List (K × V)) : List (K × V) :=
  l.foldl (fun m p => insertKV m p.1 p.2) []

/-- The keys of a map, in insertion order. -/
def keysKV (m : List (K × V)) : List K :=
  m.map Prod.fst

theorem lookupKV_insertKV (m : List (K × V)) (k k' : K) (v : V) :
    lookupKV (insertKV m k v) k' = if k = k' then some v else lookupKV m k' := by
  induction m with
  | nil => by_cases h : k = k' <;> simp [insertKV, lookupKV, h]
  | cons p rest ih =>
    obtain ⟨pk, pv⟩ := p
    by_cases hpk : pk = k
    · subst hpk
      by_cases h : pk = k' <;> simp [insertKV, lookupKV, h]
    · by_cases h : pk = k'
      · subst h
        have hk : ¬ k = pk := fun hh => hpk hh.symm
        simp [insertKV, lookupKV, hpk, hk]
      · simp [insertKV, lookupKV, hpk, h, ih]

theorem lookupKV_updateKV_self (m : List (K × V)) (k : K) (v w : V)
    (h : lookupKV m k = some v) :
    lookupKV (updateKV m k w) k = some w := by
  induction m with
  | nil => simp [lookupKV] at h
  | cons p rest ih =>
    obtain ⟨pk, pv⟩ := p
    by_cases hpk : pk = k
    · subst hpk
      simp [updateKV, lookupKV]
    · simp only [lookupKV, if_neg hpk] at h
      simp [updateKV, lookupKV, hpk, ih h]

theorem lookupKV_updateKV_ne (m : List (K × V)) (k k' : K) (w : V)
    (h : k ≠ k') :
    lookupKV (updateKV m k w) k' = lookupKV m k' := by
  induction m with
  | nil => simp [updateKV]
  | cons p rest ih =>
    obtain ⟨pk, pv⟩ := p
    by_cases hpk : pk = k
    · subst hpk
      simp [updateKV, lookupKV, h, ih]
    · simp only [updateKV, if_neg hpk, lookupKV]
      by_cases hpk' : pk = k'
      · simp [hpk']
      · simp [hpk', ih]

theorem keysKV_updateKV (m : List (K × V)) (k : K) (v : V) :
    keysKV (updateKV m k v) = keysKV m := by
  induction m with
  | nil => rfl
  | cons p rest ih =>
    obtain ⟨pk, pv⟩ := p
    by_cases hpk : pk = k
    · subst hpk
      simp [updateKV, keysKV]
    · simp [updateKV, hpk, keysKV] at ih ⊢
      exact ih

theorem mem_keysKV_insertKV (m : List (K × V)) (k k' : K) (v : V) :
    k' ∈ keysKV (insertKV m k v) ↔ k' = k ∨ k' ∈ keysKV m := by
  induction m with
  | nil => simp [insertKV, keysKV]
  | cons p rest ih =>
    obtain ⟨pk, pv⟩ := p
    by_cases hpk : pk = k
    · subst hpk
      simp only [insertKV, if_pos rfl, keysKV, List.map_cons]
      simp
    · simp [insertKV, hpk, keysKV] at ih ⊢
      tauto

theorem lookupKV_eq_none_iff (m : List (K × V)) (k : K) :
    lookupKV m k = none ↔ k ∉ keysKV m := by
  induction m with
  | nil => simp [lookupKV, keysKV]
  | cons p rest ih =>
    obtain ⟨pk, pv⟩ := p
    by_cases hpk : pk = k
    · subst hpk
      simp [lookupKV, keysKV]
    · simp [lookupKV, hpk, keysKV] at ih ⊢
      constructor
      · intro h
        exact ⟨fun hk => hpk hk.symm, ih.mp h⟩
      · intro h
        exact ih.mpr h.2

/-- The value attached to the last occurrence of a key in a list of pairs
(`none` when the key never occurs).  This is the specification-side
description of `HashMap` collection: later pairs overwrite earlier ones. -/
def lastOccurrence : List (K × V) → K → Option V
  | [], _ => none
  | (k', v') :: rest, k =>
    match lastOccurrence rest k with
    | some v => some v
    | none => if k' = k then some v' else none

theorem lookupKV_foldl_insertKV (l : List (K × V)) (m : List (K × V)) (k : K) :
    lookupKV (l.foldl (fun acc p => insertKV acc p.1 p.2) m) k =
      match lastOccurrence l k with
      | some v => some v
      | none => lookupKV m k := by
  induction l generalizing m with
  | nil => simp [lastOccurrence]
  | cons p rest ih =>
    obtain ⟨pk, pv⟩ := p
    simp only [List.foldl_cons, ih (insertKV m pk pv), lastOccurrence]
    rcases hrest : lastOccurrence rest k with _ | v
    · simp only [lookupKV_insertKV]
      by_cases hpk : pk = k <;> simp [hpk]
    · rfl

theorem lookupKV_collectKV (l : List (K × V)) (k : K) :
    lookupKV (collectKV l) k = lastOccurrence l k := by
  unfold collectKV
  rw [lookupKV_foldl_insertKV]
  rcases h : lastOccurrence l k with _ | v <;> simp [lookupKV]

theorem lastOccurrence_eq_none_iff (l : List (K × V)) (k : K) :
    lastOccurrence l k = none ↔ k ∉ l.map Prod.fst := by
  induction l with
  | nil => simp [lastOccurrence]
  | cons p rest ih =>
    obtain ⟨pk, pv⟩ := p
    simp only [lastOccurrence, List.map_cons, List.mem_cons]
    rcases hrest : lastOccurrence rest k with _ | v
    · have hr : k ∉ List.map Prod.fst rest := ih.mp hrest
      by_cases hpk : pk = k
      · subst hpk
        simp [hr]
      · have hkpk : ¬ k = pk := fun hh => hpk hh.symm
        simp [hpk, hkpk, hr]
    · have hmem : k ∈ List.map Prod.fst rest := by
        by_contra hmem
        rw [ih.mpr hmem] at hrest
        cases hrest
      simp [hmem]

theorem lastOccurrence_mem (l : List (K × V)) (k : K) (v : V)
    (h : lastOccurrence l k = some v) : (k, v) ∈ l := by
  induction l with
  | nil => simp [lastOccurrence] at h
  | cons p rest ih =>
    obtain ⟨pk, pv⟩ := p
    simp only [lastOccurrence] at h
    rcases hrest : lastOccurrence rest k with _ | w
    · rw [hrest] at h
      by_cases hpk : pk = k
      · simp only [if_pos hpk] at h
        subst hpk
        obtain rfl : pv = v := by injection h
        exact List.mem_cons_self _ _
      · simp [hpk] at h
    · rw [hrest] at h
      obtain rfl : w = v := by injection h
      exact List.mem_cons_of_mem _ (ih hrest)

theorem lastOccurrence_append_last (l₁ l₂ : List (K × V)) (k : K) (v : V)
    (h : k ∉ l₂.map Prod.fst) :
    lastOccurrence (l₁ ++ (k, v) :: l₂) k = some v := by
  induction l₁ with
  | nil =>
    simp only [List.nil_append, lastOccurrence,
      (lastOccurrence_eq_none_iff l₂ k).mpr h]
    simp
  | cons p rest ih =>
    obtain ⟨pk, pv⟩ := p
    simp only [List.cons_append, lastOccurrence]
    rw [List.append_eq, ih]

theorem lastOccurrence_map_pair_const (l : List K) (c : V) (k : K) :
    lastOccurrence (l.map (fun k' => (k', c))) k
      = if k ∈ l then some c else none := by
  induction l with
  | nil => simp [lastOccurrence]
  | cons a rest ih =>
    simp only [List.map_cons, lastOccurrence, ih, List.mem_cons]
    by_cases hmem : k ∈ rest
    · simp [hmem]
    · by_cases ha : a = k
      · subst ha
        simp [hmem]
      · have hka : ¬ k = a := fun hh => ha hh.symm
        simp [hmem, ha, hka]

theorem mem_keysKV_collectKV (l : List (K × V)) (k : K) :
    k ∈ keysKV (collectKV l) ↔ k ∈ l.map Prod.fst := by
  rw [← not_iff_not, ← lookupKV_eq_none_iff, lookupKV_collectKV,
    lastOccurrence_eq_none_iff]

/-!
### Type-erasure layer

Modelled from the spec (§4.3): the `WrapBase` trait, `impl_wrap_base!`
macro and `unwrap_base_ref` are defined in crate files (`lib.rs`,
`board.rs`, `tile.rs`) absent from `src/`; only their uses
(`src/common/src/game.rs` lines 56-74, `src/client/src/render.rs` lines
654-686) are present.  A registered family is a tag-indexed collection of
concrete types; an erased `Base*` value is a tag paired with a value of
that tag's concrete type; `wrap` tags the value itself and `unwrap`
against an expected tag fails (returns an absent result) when the stored
tag differs.
-/

/-- Modelled from the spec: `wrap` — concrete value to erased sum, always
succeeds, tags itself. -/
def wrapBase {Tag : Type} (Concrete : Tag → Type) (t : Tag) (v : Concrete t) :
    Sigma Concrete :=
  ⟨t, v⟩

/-- Modelled from the spec: `unwrap` — erased sum plus expected tag to
concrete value; fails (returns an absent result) if the stored tag does
not match. -/
def unwrapBase {Tag : Type} [DecidableEq Tag] {Concrete : Tag → Type}
    (b : Sigma Concrete) (expected : Tag) : Option (Concrete expected) :=
  if h : b.1 = expected then some (h ▸ b.2) else none

/-!
### Game definition (`PathGame`, `src/common/src/game.rs` lines 100-156)

`B` stands for the board type, `P` for the board's port type and `K` for
the board's kind type (the `Board` trait itself lives in `board.rs`,
absent from `src/`, so they stay abstract type parameters here).
-/

/-- `PathGame` (`game.rs` lines 100-110): a board, the legal start ports,
and the per-kind tile allotment map. -/
structure PathGame (B P K : Type) where
  board : B
  start_ports : List P
  tiles_per_player : List (K × Nat)

/-- `PathGame::new` (`game.rs` lines 119-127): collects the kind-to-count
iterator into the `tiles_per_player` hash map. -/
def PathGame.new {B P K : Type} [DecidableEq K] (board : B)
    (start_ports : List P) (tiles_per_player : List (K × Nat)) :
    PathGame B P K :=
  ⟨board, start_ports, collectKV tiles_per_player⟩

/-- `PathGame::num_tiles_per_player` (`game.rs` lines 153-155):
`self.tiles_per_player[kind]`, which panics (modelled `none`) when the
kind is absent. -/
def PathGame.num_tiles_per_player {B P K : Type} [DecidableEq K]
    (g : PathGame B P K) (kind : K) : Option Nat :=
  lookupKV g.tiles_per_player kind

/-!
### Player state (`src/common/src/player_state.rs`)

`K` is the tile-kind type, `T` the tile type, and `kindOf : T → K` stands
for the `Tile::kind` method of the missing `tile.rs`.  A Rust-side panic
(`.expect(..)` on an absent kind, `Vec::remove` out of range) is modelled
as `none`.
-/

/-- `PlayerState` (`player_state.rs` lines 7-10): the held tiles grouped
by kind. -/
structure PlayerState (K T : Type) where
  tiles : List (K × List T)

/-- `PlayerState::new` (`player_state.rs` lines 13-16): one empty sequence
per kind of `game.board().all_kinds()` (passed here as the list
`allKinds`, since `Board::all_kinds` lives in the absent `board.rs`). -/
def PlayerState.new {K T : Type} [DecidableEq K] (allKinds : List K) :
    PlayerState K T :=
  ⟨collectKV (allKinds.map (fun k => (k, [])))⟩

/-- `PlayerState::num_tiles_by_kind` (`player_state.rs` lines 23-26):
`self.tiles[kind].len()`; panics (modelled `none`) when the kind is
absent. -/
def PlayerState.num_tiles_by_kind {K T : Type} [DecidableEq K]
    (s : PlayerState K T) (kind : K) : Option Nat :=
  (lookupKV s.tiles kind).map List.length

/-- `PlayerState::add_tile` (`player_state.rs` lines 28-31): push the tile
onto its kind's sequence; panics (modelled `none`) when the kind has no
entry. -/
def PlayerState.add_tile {K T : Type} [DecidableEq K] (kindOf : T → K)
    (s : PlayerState K T) (tile : T) : Option (PlayerState K T) :=
  match lookupKV s.tiles (kindOf tile) with
  | none => none
  | some seq => some ⟨updateKV s.tiles (kindOf tile) (seq ++ [tile])⟩

/-- `PlayerState::remove_tile` (`player_state.rs` lines 33-38):
`Vec::remove(index)` on the kind's sequence, returning the removed tile;
panics (modelled `none`) when the kind is absent or the index is out of
range. -/
def PlayerState.remove_tile {K T : Type} [DecidableEq K]
    (s : PlayerState K T) (kind : K) (index : Nat) :
    Option (T × PlayerState K T) :=
  match lookupKV s.tiles kind with
  | none => none
  | some seq =>
    if h : index < seq.length then
      some (seq.get ⟨index, h⟩, ⟨updateKV s.tiles kind (seq.eraseIdx index)⟩)
    else none

/-- `PlayerState::remove_all_tiles` (`player_state.rs` lines 40-43):
`mem::take` every sequence and return the concatenation. -/
def PlayerState.remove_all_tiles {K T : Type} (s : PlayerState K T) :
    List T × PlayerState K T :=
  ((s.tiles.map Prod.snd).flatten, ⟨s.tiles.map (fun p => (p.1, []))⟩)

/-- Total number of tiles across all kinds of a hand map. -/
def handTotal {K T : Type} (m : List (K × List T)) : Nat :=
  (m.map (fun p => p.2.length)).sum

/-- Total number of tiles a player holds, summed across all kinds. -/
def PlayerState.total {K T : Type} (s : PlayerState K T) : Nat :=
  handTotal s.tiles

/-- One call in a sequence of hand operations. -/
inductive HandOp (K T : Type) where
  | addOp (tile : T)
  | removeOp (kind : K) (index : Nat)

/-- Run one hand operation (the state-changing part of
`add_tile` / `remove_tile`). -/
def applyOp {K T : Type} [DecidableEq K] (kindOf : T → K)
    (s : PlayerState K T) : HandOp K T → Option (PlayerState K T)
  | .addOp t => s.add_tile kindOf t
  | .removeOp k i => (s.remove_tile k i).map Prod.snd

/-- Run a sequence of hand operations; `none` as soon as one panics. -/
def applyOps {K T : Type} [DecidableEq K] (kindOf : T → K)
    (s : PlayerState K T) : List (HandOp K T) → Option (PlayerState K T)
  | [] => some s
  | op :: rest =>
    match applyOp kindOf s op with
    | none => none
    | some s' => applyOps kindOf s' rest

/-- Number of `add_tile` calls in an operation sequence. -/
def numAdds {K T : Type} : List (HandOp K T) → Nat
  | [] => 0
  | .addOp _ :: rest => numAdds rest + 1
  | .removeOp _ _ :: rest => numAdds rest

/-- Number of `remove_tile` calls in an operation sequence. -/
def numRemoves {K T : Type} : List (HandOp K T) → Nat
  | [] => 0
  | .addOp _ :: rest => numRemoves rest
  | .removeOp _ _ :: rest => numRemoves rest + 1

/-!
### Rectangular board geometry (`src/client/src/render.rs`)
-/

/-- Modelled from the spec (§4.2): `RectangleBoard` itself is defined in
`board.rs`, absent from `src/` — a grid of `width × height` cells with
`ports_per_edge` sub-ports per edge; its `TLoc` is an integer cell
coordinate. -/
structure RectangleBoard where
  width : Nat
  height : Nat
  ports_per_edge : Nat

/-- `RectangleBoard::loc_position` (`render.rs` lines 616-618):
`loc.cast() + vector![0.5, 0.5]`, over exact rationals (the `f64` values
involved are exactly representable). -/
def RectangleBoard.loc_position (_b : RectangleBoard) (loc : Int × Int) :
    Rat × Rat :=
  ((loc.1 : Rat) + 1/2, (loc.2 : Rat) + 1/2)

theorem handTotal_updateKV {K T : Type} [DecidableEq K]
    (m : List (K × List T)) (k : K) (v w : List T)
    (h : lookupKV m k = some v) :
    handTotal (updateKV m k w) + v.length = handTotal m + w.length := by
  induction m with
  | nil => simp [lookupKV] at h
  | cons p rest ih =>
    obtain ⟨pk, pv⟩ := p
    by_cases hpk : pk = k
    · subst hpk
      simp only [lookupKV, if_true] at h
      obtain rfl : pv = v := by injection h
      simp only [updateKV, if_true, handTotal, List.map_cons, List.sum_cons]
      omega
    · simp only [lookupKV, if_neg hpk] at h
      simp only [updateKV, if_neg hpk, handTotal, List.map_cons, List.sum_cons]
      have := ih h
      simp only [handTotal] at this
      omega

theorem mem_insertKV {K V : Type} [DecidableEq K]
    (m : List (K × V)) (k : K) (v : V) (p : K × V)
    (h : p ∈ insertKV m k v) : p = (k, v) ∨ p ∈ m := by
  induction m with
  | nil => simpa [insertKV] using h
  | cons q rest ih =>
    obtain ⟨qk, qv⟩ := q
    by_cases hq : qk = k
    · subst hq
      simp only [insertKV, if_true, List.mem_cons] at h
      rcases h with h | h
      · exact Or.inl h
      · exact Or.inr (List.mem_cons_of_mem _ h)
    · simp only [insertKV, if_neg hq, List.mem_cons] at h
      rcases h with h | h
      · exact Or.inr (by simp [h])
      · rcases ih h with h' | h'
        · exact Or.inl h'
        · exact Or.inr (List.mem_cons_of_mem _ h')

theorem foldl_insertKV_values {K V : Type} [DecidableEq K]
    (l : List (K × V)) (c : V) :
    ∀ (m : List (K × V)), (∀ q ∈ m, q.2 = c) → (∀ q ∈ l, q.2 = c) →
      ∀ p ∈ l.foldl (fun acc q => insertKV acc q.1 q.2) m, p.2 = c := by
  induction l with
  | nil =>
    intro m hm _ p hp
    exact hm p (by simpa using hp)
  | cons q rest ih =>
    intro m hm hl p hp
    obtain ⟨qk, qv⟩ := q
    have hqv : qv = c := hl _ (List.mem_cons_self _ _)
    simp only [List.foldl_cons] at hp
    refine ih (insertKV m qk qv) ?_ (fun r hr => hl r (List.mem_cons_of_mem _ hr)) p hp
    intro r hr
    rcases mem_insertKV _ _ _ _ hr with h | h
    · rw [h]
      exact hqv
    · exact hm r h

theorem total_new_eq_zero {K T : Type} [DecidableEq K] (allKinds : List K) :
    (PlayerState.new allKinds : PlayerState K T).total = 0 := by
  have hvals : ∀ p ∈ (PlayerState.new allKinds : PlayerState K T).tiles,
      p.2 = ([] : List T) := by
    intro p hp
    simp only [PlayerState.new, collectKV] at hp
    refine foldl_insertKV_values _ _ _ (by simp) ?_ p hp
    intro q hq
    simp only [List.mem_map] at hq
    obtain ⟨a, _, rfl⟩ := hq
    rfl
  unfold PlayerState.total handTotal
  rw [List.sum_eq_zero]
  intro x hx
  simp only [List.mem_map] at hx
  obtain ⟨p, hp, rfl⟩ := hx
  rw [hvals p hp]
  rfl

theorem total_add_tile {K T : Type} [DecidableEq K] (kindOf : T → K)
    (s s' : PlayerState K T) (t : T)
    (h : s.add_tile kindOf t = some s') : s'.total = s.total + 1 := by
  rcases hseq : lookupKV s.tiles (kindOf t) with _ | seq
  · simp only [PlayerState.add_tile, hseq] at h
    exact Option.noConfusion h
  · simp only [PlayerState.add_tile, hseq, Option.some.injEq] at h
    subst h
    have hupd := handTotal_updateKV s.tiles (kindOf t) seq (seq ++ [t]) hseq
    simp only [List.length_append, List.length_cons, List.length_nil] at hupd
    show handTotal (updateKV s.tiles (kindOf t) (seq ++ [t])) = s.total + 1
    unfold PlayerState.total
    omega

theorem total_remove_tile {K T : Type} [DecidableEq K]
    (s s' : PlayerState K T) (k : K) (i : Nat)
    (h : (s.remove_tile k i).map Prod.snd = some s') :
    s'.total + 1 = s.total := by
  rcases hseq : lookupKV s.tiles k with _ | seq
  · simp only [PlayerState.remove_tile, hseq, Option.map_none'] at h
    exact Option.noConfusion h
  · simp only [PlayerState.remove_tile, hseq] at h
    by_cases hi : i < seq.length
    · rw [dif_pos hi] at h
      simp only [Option.map_some', Option.some.injEq] at h
      subst h
      have hupd := handTotal_updateKV s.tiles k seq (seq.eraseIdx i) hseq
      have hlen : (seq.eraseIdx i).length + 1 = seq.length :=
        List.length_eraseIdx_add_one hi
      show handTotal (updateKV s.tiles k (seq.eraseIdx i)) + 1 = s.total
      unfold PlayerState.total
      omega
    · rw [dif_neg hi] at h
      simp at h

theorem applyOps_total {K T : Type} [DecidableEq K] (kindOf : T → K)
    (ops : List (HandOp K T)) :
    ∀ (s s' : PlayerState K T), applyOps kindOf s ops = some s' →
      s'.total + numRemoves ops = s.total + numAdds ops := by
  induction ops with
  | nil =>
    intro s s' h
    simp only [applyOps] at h
    injection h with h
    subst h
    simp [numAdds, numRemoves]
  | cons op rest ih =>
    intro s s' h
    rcases hop : applyOp kindOf s op with _ | s₁ <;>
      simp only [applyOps, hop] at h
    · exact Option.noConfusion h
    · have hrest := ih s₁ s' h
      cases op with
      | addOp t =>
        have hstep := total_add_tile kindOf s s₁ t hop
        simp only [numAdds, numRemoves]
        omega
      | removeOp k i =>
        have hstep := total_remove_tile s s₁ k i hop
        simp only [numAdds, numRemoves]
        omega

theorem lookupKV_map_const {K V W : Type} [DecidableEq K]
    (m : List (K × V)) (k : K) (c : W) :
    lookupKV (m.map (fun p => (p.1, c))) k
      = (lookupKV m k).map (fun _ => c) := by
  induction m with
  | nil => rfl
  | cons p rest ih =>
    obtain ⟨pk, pv⟩ := p
    by_cases hpk : pk = k <;> simp [lookupKV, hpk, ih]

/-- Claim C1: for every registered variant of an erased family, unwrapping
a wrapped concrete value against the same tag returns a value equal to the
original, and unwrapping it against any different tag fails (returns an
absent result). -/
theorem claim_c1_wrap_unwrap {Tag : Type} [DecidableEq Tag]
    (Concrete : Tag → Type) (t : Tag) (v : Concrete t) :
    unwrapBase (wrapBase Concrete t v) t = some v ∧
    ∀ t', t' ≠ t → unwrapBase (wrapBase Concrete t v) t' = none := by
  constructor
  · simp [wrapBase, unwrapBase]
  · intro t' ht
    have hne : ¬ ((wrapBase Concrete t v).1 = t') := fun hh => ht (hh.symm)
    simp only [unwrapBase, dif_neg hne]

/-- Witness for C1 at a two-tag registry. -/
theorem claim_c1_witness :
    unwrapBase (wrapBase (fun _ : Bool => Nat) true 3) true = some 3 ∧
    unwrapBase (wrapBase (fun _ : Bool => Nat) true 3) false = none :=
  ⟨(claim_c1_wrap_unwrap (fun _ : Bool => Nat) true 3).1,
   (claim_c1_wrap_unwrap (fun _ : Bool => Nat) true 3).2 false (by decide)⟩

/-- Claim C2: for every `PathGame` constructed with a kind-to-count
mapping, `num_tiles_per_player(kind)` returns the count stored in that
mapping when the kind is present, and fails (`none`, the model of the
indexing panic) when the kind is absent. -/
theorem claim_c2_num_tiles_per_player {B P K : Type} [DecidableEq K]
    (b : B) (sp : List P) (l : List (K × Nat)) (k : K) :
    (k ∈ l.map Prod.fst →
      ∃ c, (PathGame.new b sp l).num_tiles_per_player k = some c ∧ (k, c) ∈ l) ∧
    (k ∉ l.map Prod.fst →
      (PathGame.new b sp l).num_tiles_per_player k = none) := by
  have hlook : (PathGame.new b sp l).num_tiles_per_player k = lastOccurrence l k := by
    show lookupKV (collectKV l) k = lastOccurrence l k
    exact lookupKV_collectKV l k
  constructor
  · intro hmem
    rcases hocc : lastOccurrence l k with _ | c
    · exact absurd hmem (by simpa using (lastOccurrence_eq_none_iff l k).mp hocc)
    · exact ⟨c, by rw [hlook, hocc], lastOccurrence_mem l k c hocc⟩
  · intro hmem
    rw [hlook]
    exact (lastOccurrence_eq_none_iff l k).mpr hmem

/-- Witness for C2: present and absent kind on a concrete game. -/
theorem claim_c2_witness :
    (∃ c, (PathGame.new () ([] : List Unit) [((0 : Nat), 5)]).num_tiles_per_player 0
        = some c ∧ ((0 : Nat), c) ∈ [((0 : Nat), 5)]) ∧
    (PathGame.new () ([] : List Unit) [((0 : Nat), 5)]).num_tiles_per_player 1
      = none :=
  ⟨(claim_c2_num_tiles_per_player () [] [(0, 5)] 0).1 (by decide),
   (claim_c2_num_tiles_per_player () [] [(0, 5)] 1).2 (by decide)⟩

/-- Claim C3: immediately after `PlayerState::new(game)`,
`num_tiles_by_kind(k)` is `0` for every kind of the board's kind set, and
`none` (the model of the indexing panic) for any kind outside that set. -/
theorem claim_c3_new_player_state {K T : Type} [DecidableEq K]
    (allKinds : List K) (k : K) :
    (k ∈ allKinds →
      (PlayerState.new allKinds : PlayerState K T).num_tiles_by_kind k = some 0) ∧
    (k ∉ allKinds →
      (PlayerState.new allKinds : PlayerState K T).num_tiles_by_kind k = none) := by
  have hlook : lookupKV (PlayerState.new allKinds : PlayerState K T).tiles k
      = if k ∈ allKinds then some [] else none := by
    show lookupKV (collectKV (allKinds.map (fun k => (k, [])))) k = _
    rw [lookupKV_collectKV, lastOccurrence_map_pair_const]
  constructor
  · intro hmem
    simp [PlayerState.num_tiles_by_kind, hlook, hmem]
  · intro hmem
    simp [PlayerState.num_tiles_by_kind, hlook, hmem]

/-- Witness for C3 at a concrete kind set. -/
theorem claim_c3_witness :
    (PlayerState.new [0, 1] : PlayerState Nat Unit).num_tiles_by_kind 0 = some 0 ∧
    (PlayerState.new [0, 1] : PlayerState Nat Unit).num_tiles_by_kind 7 = none :=
  ⟨(claim_c3_new_player_state [0, 1] 0).1 (by decide),
   (claim_c3_new_player_state [0, 1] 7).2 (by decide)⟩

/-- Claim C4: for any sequence of `add_tile`/`remove_tile` calls that all
satisfy their preconditions (modelled by the run returning `some`),
starting from a fresh hand, the total number of tiles across all kinds
equals the number of adds minus the number of removes. -/
theorem claim_c4_hand_conservation {K T : Type} [DecidableEq K]
    (kindOf : T → K) (allKinds : List K) (ops : List (HandOp K T))
    (s' : PlayerState K T)
    (h : applyOps kindOf (PlayerState.new allKinds) ops = some s') :
    (s'.total : Int) = numAdds ops - numRemoves ops := by
  have hc := applyOps_total kindOf ops (PlayerState.new allKinds) s' h
  rw [total_new_eq_zero] at hc
  omega

/-- Witness for C4: two adds and one remove leave one tile. -/
theorem claim_c4_witness :
    applyOps (fun t : Nat => t) (PlayerState.new [0, 1])
        [HandOp.addOp 0, HandOp.addOp 1, HandOp.removeOp 0 0]
      = some (⟨[(0, []), (1, [1])]⟩ : PlayerState Nat Nat) ∧
    (((⟨[(0, []), (1, [1])]⟩ : PlayerState Nat Nat).total : Int)
      = numAdds [HandOp.addOp 0, HandOp.addOp 1, HandOp.removeOp (0 : Nat) (0 : Nat)]
        - numRemoves [HandOp.addOp 0, HandOp.addOp 1, HandOp.removeOp (0 : Nat) (0 : Nat)]) :=
  ⟨by rfl, claim_c4_hand_conservation (fun t : Nat => t) [0, 1] _ _ (by rfl)⟩

/-- Claim C5: `remove_all_tiles` returns a sequence whose length is the
hand's total before the call, and afterward every kind's sequence in the
hand is empty. -/
theorem claim_c5_remove_all_tiles {K T : Type} [DecidableEq K]
    (s : PlayerState K T) :
    (s.remove_all_tiles).1.length = s.total ∧
    ∀ k v, lookupKV (s.remove_all_tiles).2.tiles k = some v → v = [] := by
  constructor
  · show ((s.tiles.map Prod.snd).flatten).length = handTotal s.tiles
    rw [List.length_flatten, List.map_map]
    rfl
  · intro k v hv
    have hmap : lookupKV (s.tiles.map (fun p => (p.1, ([] : List T)))) k
        = (lookupKV s.tiles k).map (fun _ => []) := lookupKV_map_const s.tiles k []
    rw [show (s.remove_all_tiles).2.tiles = s.tiles.map (fun p => (p.1, [])) from rfl,
      hmap] at hv
    rcases ho : lookupKV s.tiles k with _ | w
    · rw [ho] at hv
      cases hv
    · rw [ho] at hv
      simp only [Option.map_some'] at hv
      injection hv with hv
      exact hv.symm

/-- Witness for C5 on a concrete two-kind hand. -/
theorem claim_c5_witness :
    ((⟨[(0, [1, 2]), (1, [3])]⟩ : PlayerState Nat Nat).remove_all_tiles).1.length
      = (⟨[(0, [1, 2]), (1, [3])]⟩ : PlayerState Nat Nat).total ∧
    ([] : List Nat) = [] :=
  ⟨(claim_c5_remove_all_tiles (⟨[(0, [1, 2]), (1, [3])]⟩ : PlayerState Nat Nat)).1,
   (claim_c5_remove_all_tiles (⟨[(0, [1, 2]), (1, [3])]⟩ : PlayerState Nat Nat)).2
     0 [] (by rfl)⟩

/-- Claim C6: for a hand holding kind `k` with sequence `seq` and an index
`i < seq.length`, `remove_tile(k, i)` returns exactly the tile at position
`i` of `seq`, and afterward `k`'s sequence is `seq` with position `i`
deleted. -/
theorem claim_c6_remove_tile {K T : Type} [DecidableEq K]
    (s : PlayerState K T) (k : K) (i : Nat) (seq : List T)
    (hseq : lookupKV s.tiles k = some seq) (hi : i < seq.length) :
    ∃ s', s.remove_tile k i = some (seq.get ⟨i, hi⟩, s') ∧
      lookupKV s'.tiles k = some (seq.eraseIdx i) := by
  refine ⟨⟨updateKV s.tiles k (seq.eraseIdx i)⟩, ?_, ?_⟩
  · simp [PlayerState.remove_tile, hseq, hi]
  · exact lookupKV_updateKV_self s.tiles k seq (seq.eraseIdx i) hseq

/-- Witness for C6: removing the middle tile of `[10, 20, 30]`. -/
theorem claim_c6_witness :
    ∃ s', (⟨[(0, [10, 20, 30])]⟩ : PlayerState Nat Nat).remove_tile 0 1
        = some (20, s') ∧ lookupKV s'.tiles 0 = some [10, 30] := by
  have h := claim_c6_remove_tile (⟨[(0, [10, 20, 30])]⟩ : PlayerState Nat Nat)
    0 1 [10, 20, 30] (by rfl) (by decide)
  exact h

/-- Claim C7: for a hand with an entry for `t`'s kind, `add_tile(t)`
appends `t` at the end of that kind's sequence and leaves every other
kind's sequence unchanged. -/
theorem claim_c7_add_tile {K T : Type} [DecidableEq K]
    (kindOf : T → K) (s : PlayerState K T) (t : T) (seq : List T)
    (hseq : lookupKV s.tiles (kindOf t) = some seq) :
    ∃ s', s.add_tile kindOf t = some s' ∧
      lookupKV s'.tiles (kindOf t) = some (seq ++ [t]) ∧
      ∀ k', k' ≠ kindOf t → lookupKV s'.tiles k' = lookupKV s.tiles k' := by
  refine ⟨⟨updateKV s.tiles (kindOf t) (seq ++ [t])⟩, ?_, ?_, ?_⟩
  · simp [PlayerState.add_tile, hseq]
  · exact lookupKV_updateKV_self s.tiles (kindOf t) seq (seq ++ [t]) hseq
  · intro k' hk'
    exact lookupKV_updateKV_ne s.tiles (kindOf t) k' (seq ++ [t])
      (fun hh => hk' hh.symm)

/-- Witness for C7: adding tile `2` (kind `0`) appends to kind `0` and
leaves kind `1` unchanged. -/
theorem claim_c7_witness :
    ∃ s', (⟨[(0, [5]), (1, [7])]⟩ : PlayerState Nat Nat).add_tile
        (fun t => t % 2) 2 = some s' ∧
      lookupKV s'.tiles 0 = some [5, 2] ∧ lookupKV s'.tiles 1 = some [7] := by
  obtain ⟨s', h1, h2, h3⟩ := claim_c7_add_tile (fun t : Nat => t % 2)
    (⟨[(0, [5]), (1, [7])]⟩ : PlayerState Nat Nat) 2 [5] (by rfl)
  exact ⟨s', h1, h2, h3 1 (by decide)⟩

/-- Claim C8: `RectangleBoard::loc_position` maps a tile location to its
cell coordinate plus `(0.5, 0.5)`; in particular, on the 3×2 board with
one sub-port per edge, location `(1, 1)` maps to `(1.5, 1.5)`. -/
theorem claim_c8_loc_position :
    (∀ (b : RectangleBoard) (loc : Int × Int),
        b.loc_position loc = ((loc.1 : Rat) + 1/2, (loc.2 : Rat) + 1/2)) ∧
    (RectangleBoard.mk 3 2 1).loc_position (1, 1) = (3/2, 3/2) := by
  refine ⟨fun b loc => rfl, ?_⟩
  simp only [RectangleBoard.loc_position, Prod.mk.injEq]
  norm_num

/-- Claim C9: when the iterator passed to `PathGame::new` repeats a kind,
`num_tiles_per_player` returns the count of the last occurrence (later
pairs overwrite earlier ones). -/
theorem claim_c9_last_occurrence_wins {B P K : Type} [DecidableEq K]
    (b : B) (sp : List P) (l₁ l₂ : List (K × Nat)) (k : K) (v : Nat)
    (h : k ∉ l₂.map Prod.fst) :
    (PathGame.new b sp (l₁ ++ (k, v) :: l₂)).num_tiles_per_player k = some v := by
  show lookupKV (collectKV (l₁ ++ (k, v) :: l₂)) k = some v
  rw [lookupKV_collectKV]
  exact lastOccurrence_append_last l₁ l₂ k v h

/-- Witness for C9: a duplicated kind takes the later count. -/
theorem claim_c9_witness :
    (PathGame.new () ([] : List Unit)
        [((0 : Nat), 3), (0, 7)]).num_tiles_per_player 0 = some 7 :=
  claim_c9_last_occurrence_wins () [] [(0, 3)] [] 0 7 (by decide)

/-- Claim C10: the key set of a hand equals the board's kind set after
`PlayerState::new`, and is preserved by `add_tile`, `remove_tile` and
`remove_all_tiles` (which empties sequences but never removes entries). -/
theorem claim_c10_kind_set_invariant {K T : Type} [DecidableEq K]
    (allKinds : List K) (kindOf : T → K) (s : PlayerState K T)
    (s' s'' : PlayerState K T) (t r : T) (k k₀ : K) (i : Nat) :
    (k₀ ∈ keysKV (PlayerState.new allKinds : PlayerState K T).tiles ↔
      k₀ ∈ allKinds) ∧
    (s.add_tile kindOf t = some s' → keysKV s'.tiles = keysKV s.tiles) ∧
    (s.remove_tile k i = some (r, s'') → keysKV s''.tiles = keysKV s.tiles) ∧
    keysKV (s.remove_all_tiles).2.tiles = keysKV s.tiles := by
  refine ⟨?_, ?_, ?_, ?_⟩
  · show k₀ ∈ keysKV (collectKV (allKinds.map (fun k => (k, [])))) ↔ k₀ ∈ allKinds
    rw [mem_keysKV_collectKV]
    simp
  · intro h
    rcases hseq : lookupKV s.tiles (kindOf t) with _ | seq
    · simp only [PlayerState.add_tile, hseq] at h
      exact Option.noConfusion h
    · simp only [PlayerState.add_tile, hseq, Option.some.injEq] at h
      subst h
      exact keysKV_updateKV s.tiles (kindOf t) (seq ++ [t])
  · intro h
    rcases hseq : lookupKV s.tiles k with _ | seq
    · simp only [PlayerState.remove_tile, hseq] at h
      exact Option.noConfusion h
    · simp only [PlayerState.remove_tile, hseq] at h
      by_cases hi : i < seq.length
      · rw [dif_pos hi] at h
        simp only [Option.some.injEq, Prod.mk.injEq] at h
        obtain ⟨-, h2⟩ := h
        rw [← h2]
        exact keysKV_updateKV s.tiles k (seq.eraseIdx i)
      · rw [dif_neg hi] at h
        exact Option.noConfusion h
  · show keysKV (s.tiles.map (fun p => (p.1, []))) = keysKV s.tiles
    simp [keysKV, List.map_map]

/-- Witness for C10 on a concrete two-kind hand. -/
theorem claim_c10_witness :
    ((0 : Nat) ∈ keysKV (PlayerState.new [0, 1] : PlayerState Nat Nat).tiles ↔
      (0 : Nat) ∈ [0, 1]) ∧
    keysKV (⟨[(0, [5, 4]), (1, [])]⟩ : PlayerState Nat Nat).tiles
      = keysKV (⟨[(0, [5]), (1, [])]⟩ : PlayerState Nat Nat).tiles ∧
    keysKV (⟨[(0, []), (1, [])]⟩ : PlayerState Nat Nat).tiles
      = keysKV (⟨[(0, [5]), (1, [])]⟩ : PlayerState Nat Nat).tiles ∧
    keysKV ((⟨[(0, [5]), (1, [])]⟩ :
        PlayerState Nat Nat).remove_all_tiles).2.tiles
      = keysKV (⟨[(0, [5]), (1, [])]⟩ : PlayerState Nat Nat).tiles := by
  obtain ⟨h1, h2, h3, h4⟩ := claim_c10_kind_set_invariant [0, 1]
    (fun t : Nat => t % 2) (⟨[(0, [5]), (1, [])]⟩ : PlayerState Nat Nat)
    (⟨[(0, [5, 4]), (1, [])]⟩ : PlayerState Nat Nat)
    (⟨[(0, []), (1, [])]⟩ : PlayerState Nat Nat) 4 5 0 0 0
  exact ⟨h1, h2 (by rfl), h3 (by rfl), h4⟩

end Tsurust
